import Mathlib

/-!
Verification development for the `pish` shell (src/pish.c, src/pish_history.c).

The shell's core is `execute_chain`, a recursive precedence parser over a raw
command string that forks OS processes for pipes, redirections and subshells,
and dispatches builtins (`cd`, `exit`, `history`, `exec`) in-process.

Embedding conventions:
* Command text is `List Char` (C strings without the terminating NUL).
  Destructive splitting (`*scanner = '\0'`) is modelled by `List.take`/`List.drop`.
* The OS is abstracted: external commands are an oracle
  `ext : List (List Char) → WStatus` giving the wait-status `waitpid` would
  report for that argv; `chdir path` succeeds iff `path` is a member of the
  `fs` field of the state (an abstract set of existing directories), in which
  case the working directory becomes `path`; `open`/`close`/`dup2`/`fork`/`pipe`
  are assumed to succeed (their failure branches are diagnostics + status 1/
  child death, none of which the claims quantify over).
* Observable side effects (external commands executed, files opened,
  descriptors closed, lines printed to stdout) are collected in an event trace.
* Forked children receive the parent's state by value (copy-on-write snapshot);
  their state changes are dropped, their events are kept (they are real-world
  effects).  A child's process exit code is its status masked to one byte, as
  the OS does.
* `atoi`/`strtol` are modelled as exact decimal conversion (no C `int`
  overflow); all statuses are `Nat`.
-/

namespace Pish

/-- C `isspace`: space, \t, \n, \v, \f, \r. -/
def isSpaceC (c : Char) : Bool :=
  c == ' ' || c == '\t' || c == '\n' || c == '\x0B' || c == '\x0C' || c == '\r'

/-- C `isdigit`. -/
def isDigitC (c : Char) : Bool := c.isDigit

/-- Shorthand: the character list of a string literal. -/
def cs (s : String) : List Char := s.toList

/-- `trim_whitespace` (pish.c:51): drop leading and trailing `isspace` characters. -/
def trim_whitespace (s : List Char) : List Char :=
  ((s.dropWhile isSpaceC).reverse.dropWhile isSpaceC).reverse

/-- `parse_command` (pish.c:78): split on runs of space/tab (`strtok_r(_, " \t")`),
producing the argv token list (no quoting, no expansion, no empty tokens). -/
def parse_command (s : List Char) : List (List Char) :=
  go s []
where
  go : List Char → List Char → List (List Char)
    | [], acc => if acc = [] then [] else [acc.reverse]
    | c :: rest, acc =>
      if c = ' ' ∨ c = '\t' then
        if acc = [] then go rest [] else acc.reverse :: go rest []
      else go rest (c :: acc)

/-- Decimal value of a digit run (`atoi`/`strtol` on an all-digit string,
modelled without C integer overflow). -/
def natOfDigits (l : List Char) : Nat :=
  l.foldl (fun a c => a * 10 + (c.toNat - 48)) 0

/-- `strtol(s, &end, 10)` together with the validity check used by the `exit`
builtin (pish.c:563-565): the result is `some v` iff at least one digit was
converted and `*endptr == '\0'` (nothing follows the digits). -/
def parseLongAll (s : List Char) : Option Int :=
  let s1 := s.dropWhile isSpaceC
  let (neg, s2) :=
    match s1 with
    | '-' :: r => (true, r)
    | '+' :: r => (false, r)
    | _ => (false, s1)
  let ds := s2.takeWhile isDigitC
  let rest := s2.drop ds.length
  if ds = [] ∨ rest ≠ [] then none
  else some ((if neg then -1 else 1) * (natOfDigits ds : Int))

/-! ### Operator scans of `execute_chain`

`execute_chain` (pish.c:311) performs four scans over the chain before
reaching an atomic command:
1. left-to-right for `;` at parenthesis depth 0, depth clamped at zero
   (pish.c:316-332);
2. left-to-right for the first `&&` or `||` at clamped depth 0 (pish.c:337-368);
3. right-to-left for a `|` that is not part of `||`, with unclamped depth
   counting `)` as +1 and `(` as -1 (pish.c:372-389);
4. right-to-left for `<` or `>` at unclamped depth 0 (pish.c:394-465).
Each scan function returns the index of the operator it finds. -/

/-- Scan 1 worker: first `;` at clamped depth 0; `d` is the current depth,
`i` the index of the head of the remaining list. -/
def semiScan : List Char → Nat → Nat → Option Nat
  | [], _, _ => none
  | c :: rest, d, i =>
    if c = '(' then semiScan rest (d + 1) (i + 1)
    else if c = ')' then semiScan rest (d - 1) (i + 1)
    else if c = ';' ∧ d = 0 then some i
    else semiScan rest d (i + 1)

/-- Index of the first depth-0 `;` (pish.c:316-332). -/
def findSemi (s : List Char) : Option Nat := semiScan s 0 0

/-- Which conditional operator scan 2 found. -/
inductive AndOr where
  | andOp
  | orOp
deriving DecidableEq

/-- Scan 2 worker: first `&&` or `||` at clamped depth 0 (`strncmp` needs the
following character to match as well). -/
def aoScan : List Char → Nat → Nat → Option (Nat × AndOr)
  | [], _, _ => none
  | c :: rest, d, i =>
    if c = '(' then aoScan rest (d + 1) (i + 1)
    else if c = ')' then aoScan rest (d - 1) (i + 1)
    else if d = 0 ∧ c = '&' ∧ rest.head? = some '&' then some (i, AndOr.andOp)
    else if d = 0 ∧ c = '|' ∧ rest.head? = some '|' then some (i, AndOr.orOp)
    else aoScan rest d (i + 1)

/-- Index and kind of the first depth-0 `&&`/`||` (pish.c:337-368). -/
def findAndOr (s : List Char) : Option (Nat × AndOr) := aoScan s 0 0

/-- Scan 3 worker, on the reversed chain (right-to-left in the original).
Returns the distance from the right end.  A `|` whose left neighbour is also
`|` is skipped together with that neighbour (pish.c:381-383); a `|` at the very
start of the chain has no left neighbour and is taken as a pipe. -/
def pipeScanRev : List Char → Int → Option Nat
  | [], _ => none
  | c :: rest, lvl =>
    if c = ')' then (pipeScanRev rest (lvl + 1)).map (· + 1)
    else if c = '(' then (pipeScanRev rest (lvl - 1)).map (· + 1)
    else if c = '|' ∧ lvl = 0 then
      match rest with
      | [] => some 0
      | c2 :: rest2 =>
        if c2 = '|' then (pipeScanRev rest2 lvl).map (· + 2) else some 0
    else (pipeScanRev rest lvl).map (· + 1)

/-- Index (from the left) of the pipe split point (pish.c:372-389). -/
def findPipe (s : List Char) : Option Nat :=
  (pipeScanRev s.reverse 0).map (fun r => s.length - 1 - r)

/-- Scan 4 worker, on the reversed chain: rightmost `<` or `>` at depth 0. -/
def redirScanRev : List Char → Int → Option Nat
  | [], _ => none
  | c :: rest, lvl =>
    if c = ')' then (redirScanRev rest (lvl + 1)).map (· + 1)
    else if c = '(' then (redirScanRev rest (lvl - 1)).map (· + 1)
    else if lvl ≠ 0 then (redirScanRev rest lvl).map (· + 1)
    else if c = '>' ∨ c = '<' then some 0
    else (redirScanRev rest lvl).map (· + 1)

/-- Index (from the left) of the redirection operator (pish.c:394-465). -/
def findRedir (s : List Char) : Option Nat :=
  (redirScanRev s.reverse 0).map (fun r => s.length - 1 - r)

/-! ### Redirection operator parsing (pish.c:409-462) -/

/-- The four redirection operators. -/
inductive ROp where
  | rIn    -- `<`  : O_RDONLY, default fd 0
  | rOut   -- `>`  : O_WRONLY|O_CREAT|O_TRUNC, default fd 1
  | rApp   -- `>>` : O_WRONLY|O_CREAT|O_APPEND, default fd 1
  | rRW    -- `<>` : O_RDWR|O_CREAT, default fd 0
deriving DecidableEq

/-- `op_start` for the operator whose last character sits at index `p`
(pish.c:412-436): two characters when the previous character makes `>>` or `<>`. -/
def opStartOf (s : List Char) (p : Nat) : Nat :=
  if s.getD p ' ' = '<' then p
  else if 0 < p ∧ (s.getD (p - 1) ' ' = '>' ∨ s.getD (p - 1) ' ' = '<') then p - 1
  else p

/-- Operator kind at index `p` (pish.c:417-435). -/
def opKindOf (s : List Char) (p : Nat) : ROp :=
  if s.getD p ' ' = '<' then ROp.rIn
  else if 0 < p ∧ s.getD (p - 1) ' ' = '>' then ROp.rApp
  else if 0 < p ∧ s.getD (p - 1) ' ' = '<' then ROp.rRW
  else ROp.rOut

/-- Default destination descriptor: 0 for the input operators `<` and `<>`,
1 for the output operators `>` and `>>` (pish.c:419-434). -/
def defaultFdOf (s : List Char) (p : Nat) : Nat :=
  match opKindOf s p with
  | ROp.rIn => 0
  | ROp.rRW => 0
  | ROp.rApp => 1
  | ROp.rOut => 1

/-- Start index of the maximal digit run ending just before index `e`
(pish.c:443-447): walk left while the previous character is a digit. -/
def dStart (s : List Char) : Nat → Nat
  | 0 => 0
  | e + 1 => if isDigitC (s.getD e ' ') then dStart s e else e + 1

/-- The digit-selection condition of pish.c:441-457: a digit immediately
precedes `op_start`, the digit run is separated from any prior token by
whitespace or the start of the chain, and the run is shorter than 15
characters (the `len < 15` buffer guard). -/
def fdSelApplies (s : List Char) (o : Nat) : Bool :=
  decide (0 < o) && isDigitC (s.getD (o - 1) ' ') &&
    (let m := dStart s (o - 1)
     (decide (m = 0) || isSpaceC (s.getD (m - 1) ' ')) &&
       decide ((o - 1) - m + 1 < 15))

/-- The digit run preceding `op_start` at `o` (contents of `num_buf`). -/
def digitRun (s : List Char) (o : Nat) : List Char :=
  (s.drop (dStart s (o - 1))).take ((o - 1) - dStart s (o - 1) + 1)

/-- Resolved destination descriptor (pish.c:438-458): the digit run's value if
digit selection applies, else the operator's default. -/
def destFdOf (s : List Char) (o : Nat) (defFd : Nat) : Nat :=
  if fdSelApplies s o then natOfDigits (digitRun s o) else defFd

/-- `term_point` (pish.c:439-460): where the chain is cut to isolate the
command text — the digit run start when digit selection applies, else
`op_start`. -/
def termPointOf (s : List Char) (o : Nat) : Nat :=
  if fdSelApplies s o then dStart s (o - 1) else o

/-- Result of splitting a chain at a redirection operator. -/
structure RedirSplit where
  cmd : List Char
  file : List Char
  op : ROp
  destFd : Nat
deriving DecidableEq

/-- Full parse of the redirection whose operator ends at index `p`
(pish.c:409-462): the command is the text before `term_point`, the target is
the trimmed remainder after the operator. -/
def parseRedirAt (s : List Char) (p : Nat) : RedirSplit :=
  { cmd := s.take (termPointOf s (opStartOf s p))
    file := trim_whitespace (s.drop (p + 1))
    op := opKindOf s p
    destFd := destFdOf s (opStartOf s p) (defaultFdOf s p) }

/-! ### Process state, wait statuses and traces -/

/-- OS wait status of a terminated child, as inspected with
`WIFEXITED`/`WEXITSTATUS`/`WIFSIGNALED`/`WTERMSIG`.  `exited c` carries the
one-byte exit code the OS reports; `other` is any remaining case (the
`else` branches of the translations). -/
inductive WStatus where
  | exited (code : Nat)
  | signaled (sig : Nat)
  | other
deriving DecidableEq

/-- Observable events: an external command executed (with the wait status the
oracle reports for it), a redirection target opened, a descriptor closed by a
`-` target, a line printed to stdout. -/
inductive Ev where
  | cmd (argv : List (List Char)) (w : WStatus)
  | openFile (path : List Char)
  | closeFd (fd : Nat)
  | print (line : List Char)
deriving DecidableEq

/-- Process-wide shell state: `last_exit_status` (pish.c:20), the
previous-directory slot `prevDir` (pish.c:304), the working directory, the
abstract set of existing directories (`chdir p` succeeds iff `p ∈ fs`), and
the history file's lines. -/
structure ShellState where
  lastExit : Nat
  prevDir : List Char
  cwd : List Char
  fs : List (List Char)
  history : List (List Char)
deriving DecidableEq

/-- How one `execute_chain` call ends: a returned status, or the whole
process terminated by `exit`/`exec` inside the call. -/
inductive Outcome where
  | ret (status : Nat)
  | exited (code : Nat)
deriving DecidableEq

/-- Result of evaluating a chain: outcome, resulting state, event trace. -/
structure Res where
  outcome : Outcome
  st : ShellState
  tr : List Ev
deriving DecidableEq

/-- Wait-status translation of `run` (pish.c:134-140) and `run_subshell`
(pish.c:229-236): normal exit → its code, signal death → 128+N, else 1. -/
def waitTranslateRun : WStatus → Nat
  | WStatus.exited c => c
  | WStatus.signaled n => 128 + n
  | WStatus.other => 1

/-- Wait-status translation of `run_pipe` (pish.c:299-302) and the
`run_redirect` parent (pish.c:196-201): normal exit → its code, anything
else → 1.  There is no 128+N signal rule here. -/
def waitTranslatePipe : WStatus → Nat
  | WStatus.exited c => c
  | _ => 1

/-- The wait status a forked child produces when it runs a chain and calls
`exit` with the result: a normal exit whose code is the status masked to one
byte by the OS. -/
def childWait (r : Res) : WStatus :=
  match r.outcome with
  | Outcome.ret v => WStatus.exited (v % 256)
  | Outcome.exited c => WStatus.exited (c % 256)

/-- Parent half of `run_pipe` (pish.c:292-302): close both pipe ends, wait
for the left child WITHOUT inspecting its status (`waitpid(left_pid, NULL, 0)`),
wait for the right child, return its translated status. -/
def run_pipe_wait (_leftW : WStatus) (rightW : WStatus) : Nat :=
  waitTranslatePipe rightW

/-- `run_pipe` at the chain level: both children are forked from the parent
state before either is awaited; the parent keeps its own state and collects
both children's events. -/
def run_pipe (st : ShellState) (rl rr : Res) : Res :=
  { outcome := Outcome.ret (run_pipe_wait (childWait rl) (childWait rr))
    st := st
    tr := rl.tr ++ rr.tr }

/-- `run_subshell` (pish.c:210-238): fork, child evaluates and exits, parent
waits and translates with the 128+N rule; parent state is untouched. -/
def run_subshell (st : ShellState) (r : Res) : Res :=
  { outcome := Outcome.ret (waitTranslateRun (childWait r))
    st := st
    tr := r.tr }

/-- `run_redirect` (pish.c:152-203): fork; in the child, a target of exactly
`-` (after dropping one leading `&`) closes `dest_fd` and evaluates the
command without opening anything, otherwise the target path (as written,
including a leading `&`) is opened and dup2-ed onto `dest_fd` before the
command is evaluated; the parent waits and translates without the signal
rule.  `r` is the child's evaluation of the command text. -/
def run_redirect (st : ShellState) (file : List Char) (destFd : Nat) (r : Res) : Res :=
  let target := if file.head? = some '&' then file.tail else file
  if target = ['-'] then
    { outcome := Outcome.ret (waitTranslatePipe (childWait r))
      st := st
      tr := Ev.closeFd destFd :: r.tr }
  else
    { outcome := Outcome.ret (waitTranslatePipe (childWait r))
      st := st
      tr := Ev.openFile file :: r.tr }

/-! ### Builtin dispatch (pish.c:501-611) -/

/-- The `cd` builtin (pish.c:513-551).  Exactly one argument required.
`cd -` with an empty slot prints the current directory and leaves everything
unchanged; otherwise it swaps with the slot, restoring the slot on `chdir`
failure.  `cd path` unconditionally records the current directory in the slot
BEFORE attempting the change and does not restore it on failure. -/
def cdBuiltin (args : List (List Char)) (st : ShellState) : Res :=
  match args with
  | [arg] =>
    let cwd := st.cwd
    if arg = ['-'] then
      if st.prevDir = [] then
        { outcome := Outcome.ret 0, st := st, tr := [Ev.print cwd] }
      else
        let temp := st.prevDir
        if temp ∈ st.fs then
          { outcome := Outcome.ret 0
            st := { st with cwd := temp, prevDir := cwd }
            tr := [Ev.print temp] }
        else
          -- chdir failed: prevDir had been set to cwd and is restored to temp
          { outcome := Outcome.ret 1, st := st, tr := [] }
    else
      if arg ∈ st.fs then
        { outcome := Outcome.ret 0
          st := { st with prevDir := cwd, cwd := arg }
          tr := [] }
      else
        -- chdir failed: the slot keeps the value just written (the old cwd)
        { outcome := Outcome.ret 1, st := { st with prevDir := cwd }, tr := [] }
  | _ => { outcome := Outcome.ret 1, st := st, tr := [] }

/-- The `exit` builtin (pish.c:554-573): more than one argument → usage error
status 1; one argument → terminate with the strtol value masked to one byte if
it parses completely, else status 2; no argument → terminate with
`last_exit_status`. -/
def exitBuiltin (args : List (List Char)) (st : ShellState) : Res :=
  match args with
  | [] => { outcome := Outcome.exited st.lastExit, st := st, tr := [] }
  | [a] =>
    match parseLongAll a with
    | some v => { outcome := Outcome.exited (v % 256).toNat, st := st, tr := [] }
    | none => { outcome := Outcome.ret 2, st := st, tr := [] }
  | _ => { outcome := Outcome.ret 1, st := st, tr := [] }

/-- `print_history` (pish_history.c:63-75): print each stored line prefixed by
its 1-based sequence number, computed while printing. -/
def print_history : Nat → List (List Char) → List Ev
  | _, [] => []
  | n, l :: r => Ev.print (Nat.toDigits 10 n ++ ' ' :: l) :: print_history (n + 1) r

/-- `clear_history` (pish_history.c:80-90): truncate the store. -/
def clear_history (_h : List (List Char)) : List (List Char) := []

/-- The `history` builtin (pish.c:576-589). -/
def historyBuiltin (args : List (List Char)) (st : ShellState) : Res :=
  match args with
  | [] => { outcome := Outcome.ret 0, st := st, tr := print_history 1 st.history }
  | [a] =>
    if a = ['-', 'c'] then
      { outcome := Outcome.ret 0, st := { st with history := clear_history st.history }, tr := [] }
    else { outcome := Outcome.ret 1, st := st, tr := [] }
  | _ => { outcome := Outcome.ret 1, st := st, tr := [] }

/-- The `exec` builtin (pish.c:592-600): no program → usage error; otherwise
the shell's image is replaced, so the shell process terminates with the
replacing program's outcome (a failing `execvp` exits 127, which the oracle
reports as `exited 127`). -/
def execBuiltin (ext : List (List Char) → WStatus) (args : List (List Char))
    (st : ShellState) : Res :=
  match args with
  | [] => { outcome := Outcome.ret 1, st := st, tr := [] }
  | _ =>
    let w := ext args
    { outcome := Outcome.exited (waitTranslateRun w), st := st, tr := [Ev.cmd args w] }

/-- `run` (pish.c:110-142): empty argv is a no-op that records status 0;
otherwise fork/exec the program, wait, translate the wait status with the
128+N rule, and record it in `last_exit_status`. -/
def run (ext : List (List Char) → WStatus) (argv : List (List Char))
    (st : ShellState) : Res :=
  match argv with
  | [] => { outcome := Outcome.ret 0, st := { st with lastExit := 0 }, tr := [] }
  | _ =>
    let w := ext argv
    let v := waitTranslateRun w
    { outcome := Outcome.ret v, st := { st with lastExit := v }, tr := [Ev.cmd argv w] }

/-- Atomic-command dispatch (pish.c:501-611): tokenized command to builtin or
`run`; an empty argv does nothing (and, unlike `run` on an empty argv, does
not touch `last_exit_status`). -/
def dispatchCommand (ext : List (List Char) → WStatus) (argv : List (List Char))
    (st : ShellState) : Res :=
  match argv with
  | [] => { outcome := Outcome.ret 0, st := st, tr := [] }
  | c0 :: rest =>
    if c0 = cs "cd" then cdBuiltin rest st
    else if c0 = cs "exit" then exitBuiltin rest st
    else if c0 = cs "history" then historyBuiltin rest st
    else if c0 = cs "exec" then execBuiltin ext rest st
    else run ext argv st

/-! ### The chain evaluator -/

/-- Sequential composition for `;` (pish.c:324-330): the left side runs first
and its status is discarded, but an in-process `exit` on the left terminates
the whole evaluation, and the left side's state changes are visible on the
right. -/
def seqCompose (r1 : Res) (k : ShellState → Res) : Res :=
  match r1 with
  | { outcome := Outcome.exited c, st := st1, tr := tr1 } =>
    { outcome := Outcome.exited c, st := st1, tr := tr1 }
  | { outcome := Outcome.ret _, st := st1, tr := tr1 } =>
    let r2 := k st1
    { outcome := r2.outcome, st := r2.st, tr := tr1 ++ r2.tr }

/-- Conditional composition for `&&`/`||` (pish.c:346-365): `&&` runs the
right side only when the left status is 0, `||` only when it is non-zero;
otherwise the left result is returned unchanged. -/
def condCompose (op : AndOr) (r1 : Res) (k : ShellState → Res) : Res :=
  match r1 with
  | { outcome := Outcome.exited c, st := st1, tr := tr1 } =>
    { outcome := Outcome.exited c, st := st1, tr := tr1 }
  | { outcome := Outcome.ret v, st := st1, tr := tr1 } =>
    let goRight : Res :=
      let r2 := k st1
      { outcome := r2.outcome, st := r2.st, tr := tr1 ++ r2.tr }
    match op with
    | AndOr.andOp =>
      if v = 0 then goRight else { outcome := Outcome.ret v, st := st1, tr := tr1 }
    | AndOr.orOp =>
      if v ≠ 0 then goRight else { outcome := Outcome.ret v, st := st1, tr := tr1 }

/-- Negation postprocessing (pish.c:471-480): invert the in-process result
(0 → 1, non-zero → 0); an `exit` inside the negated chain still terminates
the process. -/
def negWrap (r : Res) : Res :=
  match r with
  | { outcome := Outcome.exited c, st := st1, tr := tr1 } =>
    { outcome := Outcome.exited c, st := st1, tr := tr1 }
  | { outcome := Outcome.ret v, st := st1, tr := tr1 } =>
    { outcome := Outcome.ret (if v = 0 then 1 else 0), st := st1, tr := tr1 }

/-- Fueled evaluator for `execute_chain` (pish.c:311-615).  Every recursive
call of the C function is on a strictly shorter string, so fuel
`s.length + 1` always suffices (`go_mono` below); the fuel-0 default is
unreachable at that fuel. -/
def go (ext : List (List Char) → WStatus) : Nat → List Char → ShellState → Res
  | 0, _, st => { outcome := Outcome.ret 0, st := st, tr := [] }
  | f + 1, s, st =>
    match findSemi s with
    | some p =>
      seqCompose (go ext f (s.take p) st) (fun st1 => go ext f (s.drop (p + 1)) st1)
    | none =>
      match findAndOr s with
      | some (p, op) =>
        condCompose op (go ext f (s.take p) st) (fun st1 => go ext f (s.drop (p + 2)) st1)
      | none =>
        match findPipe s with
        | some p =>
          run_pipe st (go ext f (s.take p) st) (go ext f (s.drop (p + 1)) st)
        | none =>
          match findRedir s with
          | some p =>
            run_redirect st (parseRedirAt s p).file (parseRedirAt s p).destFd
              (go ext f (parseRedirAt s p).cmd st)
          | none =>
            match trim_whitespace s with
            | [] => { outcome := Outcome.ret 0, st := st, tr := [] }
            | c :: rest =>
              if c = '!' then negWrap (go ext f rest st)
              else if c = '(' then
                if rest.getLast? = some ')' then
                  run_subshell st (go ext f rest.dropLast st)
                else { outcome := Outcome.ret 2, st := st, tr := [] }
              else dispatchCommand ext (parse_command (c :: rest)) st

/-- `execute_chain` (pish.c:311): the fueled evaluator at sufficient fuel. -/
def execute_chain (ext : List (List Char) → WStatus) (s : List Char)
    (st : ShellState) : Res :=
  go ext (s.length + 1) s st

/-! ### Line assembly: continuation detection and the main loop -/

/-- `check_for_continuation` (pish.c:623-661).  Returns the continuation type
(0 none, 1 trailing backslash, 2 `&&`/`||`, 3 single `|`, 4 dangling
redirection operator) together with the possibly mutated line: in the
backslash case the code writes `line[len-1] = '\0'` where `len` is the length
of the TRIMMED copy but the index is into the original line, truncating the
string there. -/
def check_for_continuation (line : List Char) : Nat × List Char :=
  if line.length = 0 then (0, line)
  else if 0 < (trim_whitespace line).length ∧
      line.getD ((trim_whitespace line).length - 1) ' ' = '\\' then
    (1, line.take ((trim_whitespace line).length - 1))
  else if 2 ≤ (trim_whitespace line).length ∧
      ((trim_whitespace line).drop ((trim_whitespace line).length - 2) = ['&', '&'] ∨
        (trim_whitespace line).drop ((trim_whitespace line).length - 2) = ['|', '|']) then
    (2, line)
  else if 1 ≤ (trim_whitespace line).length ∧
      (trim_whitespace line).getD ((trim_whitespace line).length - 1) ' ' = '|' ∧
      ((trim_whitespace line).length < 2 ∨
        ¬(trim_whitespace line).getD ((trim_whitespace line).length - 2) ' ' = '|') then
    (3, line)
  else if 0 < (trim_whitespace line).length ∧
      ((trim_whitespace line).getD ((trim_whitespace line).length - 1) ' ' = '>' ∨
        (trim_whitespace line).getD ((trim_whitespace line).length - 1) ' ' = '<') then
    (4, line)
  else (0, line)

/-- Separator inserted by the `pish` loop when joining a continuation line
(pish.c:708-715): none after a backslash continuation, one space otherwise. -/
def continuationSep (t : Nat) : List Char := if t = 1 then [] else [' ']

/-- One join step of the `pish` loop (pish.c:677-741): if the accumulated
command asks for continuation, append the separator and the trimmed next
line; otherwise the command is complete (`none`). -/
def joinContinuation (cur next : List Char) : Option (List Char) :=
  if (check_for_continuation cur).1 = 0 then none
  else some ((check_for_continuation cur).2 ++
    continuationSep (check_for_continuation cur).1 ++ trim_whitespace next)

/-- `add_history`'s buffer construction (pish_history.c:34-46): the argv
tokens joined by single spaces. -/
def joinSpace : List (List Char) → List Char
  | [] => []
  | [t] => t
  | t :: r => t ++ ' ' :: joinSpace r

/-- `add_history` (pish_history.c:25-48): append the space-joined argv as one
line of the history store. -/
def add_history (argv : List (List Char)) (h : List (List Char)) : List (List Char) :=
  h ++ [joinSpace argv]

/-- The history append performed by the `pish` loop before executing an
assembled command (pish.c:745-760, interactive mode): the command is
re-tokenized and appended only when it has at least one token. -/
def pishHistState (line : List Char) (st : ShellState) : ShellState :=
  if parse_command line = [] then st
  else { st with history := add_history (parse_command line) st.history }

/-- One iteration of the `pish` loop body for a fully assembled command
(pish.c:742-771, interactive mode): an empty command just records status 0;
otherwise the command is appended to history, executed, and the returned
status stored in `last_exit_status` — or, if the evaluation called `exit`,
the shell process terminates with that code (masked by the OS). -/
def pishStep (ext : List (List Char) → WStatus) (line : List Char)
    (st : ShellState) : ShellState × Option Nat × List Ev :=
  if line = [] then ({ st with lastExit := 0 }, none, [])
  else
    let st1 := pishHistState line st
    let r := execute_chain ext line st1
    match r.outcome with
    | Outcome.ret v => ({ r.st with lastExit := v }, none, r.tr)
    | Outcome.exited c => (r.st, some (c % 256), r.tr)

/-- The `pish` loop (pish.c:667-778) over a list of already assembled
commands: run them in order until one terminates the process. -/
def pish (ext : List (List Char) → WStatus) :
    List (List Char) → ShellState → ShellState × Option Nat × List Ev
  | [], st => (st, none, [])
  | l :: ls, st =>
    match pishStep ext l st with
    | (st1, some c, tr) => (st1, some c, tr)
    | (st1, none, tr) =>
      match pish ext ls st1 with
      | (st2, e2, tr2) => (st2, e2, tr ++ tr2)

/-- The translated exit status of the last external command in a trace
(the last `last_exit_status` value `run` recorded). -/
def lastExternalExit (tr : List Ev) : Option Nat :=
  (tr.filterMap fun e =>
    match e with
    | Ev.cmd _ w => some (waitTranslateRun w)
    | _ => none).getLast?

/-! ### Concrete fixtures for witnesses and counterexamples -/

/-- Oracle for tests: `true` exits 0, `false` exits 1, anything else exits
127 (not found). -/
def extTB : List (List Char) → WStatus := fun argv =>
  if argv = [cs "true"] then WStatus.exited 0
  else if argv = [cs "false"] then WStatus.exited 1
  else WStatus.exited 127

/-- Oracle for the `exit` counterexample: the external command `cmd3` exits
with status 3; everything else exits 0. -/
def extC5 : List (List Char) → WStatus := fun argv =>
  if argv = [cs "cmd3"] then WStatus.exited 3 else WStatus.exited 0

/-- Initial test state: in `/`, empty previous-directory slot, empty
history; `/`, `/a` and `/b` exist. -/
def st0 : ShellState :=
  { lastExit := 0, prevDir := [], cwd := cs "/"
    fs := [cs "/", cs "/a", cs "/b"], history := [] }

/-! ### Scan index bounds -/

theorem semiScan_bound : ∀ (l : List Char) (d i p : Nat), semiScan l d i = some p → p < i + l.length := by
  intro l
  induction l with
  | nil => intro d i p h; simp [semiScan] at h
  | cons c rest ih =>
    intro d i p h
    simp only [semiScan] at h
    split_ifs at h with h1 h2 h3
    · have := ih _ _ _ h; simp only [List.length_cons]; omega
    · have := ih _ _ _ h; simp only [List.length_cons]; omega
    · simp only [Option.some.injEq] at h; simp only [List.length_cons]; omega
    · have := ih _ _ _ h; simp only [List.length_cons]; omega

theorem findSemi_lt {s : List Char} {p : Nat} (h : findSemi s = some p) : p < s.length := by
  have := semiScan_bound s 0 0 p h; omega

theorem aoScan_bound : ∀ (l : List Char) (d i : Nat) (p : Nat) (op : AndOr),
    aoScan l d i = some (p, op) → p + 1 < i + l.length := by
  intro l
  induction l with
  | nil => intro d i p op h; simp [aoScan] at h
  | cons c rest ih =>
    intro d i p op h
    simp only [aoScan] at h
    split_ifs at h with h1 h2 h3 h4
    · have := ih _ _ _ _ h; simp only [List.length_cons]; omega
    · have := ih _ _ _ _ h; simp only [List.length_cons]; omega
    · simp only [Option.some.injEq, Prod.mk.injEq] at h
      obtain ⟨rfl, -⟩ := h
      obtain ⟨-, -, h5⟩ := h3
      cases rest with
      | nil => simp at h5
      | cons c2 rest2 => simp only [List.length_cons]; omega
    · simp only [Option.some.injEq, Prod.mk.injEq] at h
      obtain ⟨rfl, -⟩ := h
      obtain ⟨-, -, h5⟩ := h4
      cases rest with
      | nil => simp at h5
      | cons c2 rest2 => simp only [List.length_cons]; omega
    · have := ih _ _ _ _ h; simp only [List.length_cons]; omega

theorem findAndOr_lt {s : List Char} {p : Nat} {op : AndOr}
    (h : findAndOr s = some (p, op)) : p + 1 < s.length := by
  have := aoScan_bound s 0 0 p op h; omega

theorem pipeScanRev_bound : ∀ (n : Nat) (l : List Char), l.length ≤ n →
    ∀ (lvl : Int) (r : Nat), pipeScanRev l lvl = some r → r < l.length := by
  intro n
  induction n with
  | zero =>
    intro l hl lvl r h
    cases l with
    | nil => simp [pipeScanRev] at h
    | cons c rest => simp at hl
  | succ n ih =>
    intro l hl lvl r h
    cases l with
    | nil => simp [pipeScanRev] at h
    | cons c rest =>
      cases rest with
      | nil =>
        simp only [pipeScanRev] at h
        split_ifs at h with h1 h2 h3
        · simp [pipeScanRev] at h
        · simp [pipeScanRev] at h
        · simp only [Option.some.injEq] at h
          simp only [List.length_cons]; omega
        · simp [pipeScanRev] at h
      | cons c2 rest2 =>
        simp only [pipeScanRev] at h
        simp only [List.length_cons] at hl ⊢
        split_ifs at h with h1 h2 h3 h4
        · rw [Option.map_eq_some'] at h
          obtain ⟨r', hr', rfl⟩ := h
          have := ih (c2 :: rest2) (by simp; omega) _ _ hr'
          simp only [List.length_cons] at this; omega
        · rw [Option.map_eq_some'] at h
          obtain ⟨r', hr', rfl⟩ := h
          have := ih (c2 :: rest2) (by simp; omega) _ _ hr'
          simp only [List.length_cons] at this; omega
        · rw [Option.map_eq_some'] at h
          obtain ⟨r', hr', rfl⟩ := h
          have := ih rest2 (by omega) _ _ hr'
          omega
        · simp only [Option.some.injEq] at h; omega
        · rw [Option.map_eq_some'] at h
          obtain ⟨r', hr', rfl⟩ := h
          have := ih (c2 :: rest2) (by simp; omega) _ _ hr'
          simp only [List.length_cons] at this; omega

theorem findPipe_lt {s : List Char} {p : Nat} (h : findPipe s = some p) : p < s.length := by
  simp only [findPipe, Option.map_eq_some'] at h
  obtain ⟨r, hr, rfl⟩ := h
  have := pipeScanRev_bound s.reverse.length s.reverse le_rfl 0 r hr
  simp only [List.length_reverse] at this
  omega

theorem redirScanRev_bound : ∀ (l : List Char) (lvl : Int) (r : Nat),
    redirScanRev l lvl = some r → r < l.length := by
  intro l
  induction l with
  | nil => intro lvl r h; simp [redirScanRev] at h
  | cons c rest ih =>
    intro lvl r h
    simp only [redirScanRev] at h
    simp only [List.length_cons]
    split_ifs at h with h1 h2 h3 h4
    · rw [Option.map_eq_some'] at h
      obtain ⟨r', hr', rfl⟩ := h
      have := ih _ _ hr'; omega
    · rw [Option.map_eq_some'] at h
      obtain ⟨r', hr', rfl⟩ := h
      have := ih _ _ hr'; omega
    · rw [Option.map_eq_some'] at h
      obtain ⟨r', hr', rfl⟩ := h
      have := ih _ _ hr'; omega
    · simp only [Option.some.injEq] at h; omega
    · rw [Option.map_eq_some'] at h
      obtain ⟨r', hr', rfl⟩ := h
      have := ih _ _ hr'; omega

theorem findRedir_lt {s : List Char} {p : Nat} (h : findRedir s = some p) : p < s.length := by
  simp only [findRedir, Option.map_eq_some'] at h
  obtain ⟨r, hr, rfl⟩ := h
  have := redirScanRev_bound s.reverse 0 r hr
  simp only [List.length_reverse] at this
  omega

theorem dStart_le (s : List Char) : ∀ e, dStart s e ≤ e := by
  intro e
  induction e with
  | zero => simp [dStart]
  | succ e ih => simp only [dStart]; split_ifs <;> omega

theorem termPointOf_le (s : List Char) (o : Nat) : termPointOf s o ≤ o := by
  unfold termPointOf
  split_ifs
  · have := dStart_le s (o - 1); omega
  · exact le_rfl

theorem opStartOf_le (s : List Char) (p : Nat) : opStartOf s p ≤ p := by
  unfold opStartOf; split_ifs <;> omega

theorem parseRedir_cmd_lt {s : List Char} {p : Nat} (hp : p < s.length) :
    (parseRedirAt s p).cmd.length < s.length := by
  simp only [parseRedirAt]
  rw [List.length_take]
  have h1 := termPointOf_le s (opStartOf s p)
  have h2 := opStartOf_le s p
  have h3 := Nat.min_le_left (termPointOf s (opStartOf s p)) s.length
  omega

theorem trim_length_le (s : List Char) : (trim_whitespace s).length ≤ s.length := by
  unfold trim_whitespace
  rw [List.length_reverse]
  calc ((s.dropWhile isSpaceC).reverse.dropWhile isSpaceC).length
      ≤ (s.dropWhile isSpaceC).reverse.length := (List.dropWhile_suffix _).length_le
    _ = (s.dropWhile isSpaceC).length := List.length_reverse _
    _ ≤ s.length := (List.dropWhile_suffix _).length_le

/-! ### Fuel irrelevance and one-step unfoldings of `execute_chain` -/

theorem go_mono (ext : List (List Char) → WStatus) :
    ∀ (n : Nat) (s : List Char) (f1 f2 : Nat) (st : ShellState),
      s.length < n → s.length < f1 → s.length < f2 →
      go ext f1 s st = go ext f2 s st := by
  intro n
  induction n with
  | zero => intro s f1 f2 st h _ _; exact absurd h (Nat.not_lt_zero _)
  | succ n ih =>
    intro s f1 f2 st hn h1 h2
    obtain ⟨a, rfl⟩ : ∃ a, f1 = a + 1 := ⟨f1 - 1, by omega⟩
    obtain ⟨b, rfl⟩ : ∃ b, f2 = b + 1 := ⟨f2 - 1, by omega⟩
    simp only [go]
    cases hq : findSemi s with
    | some p =>
      have hp : p < s.length := findSemi_lt hq
      have ht : (s.take p).length < s.length := by
        rw [List.length_take]; have := Nat.min_le_left p s.length; omega
      have hd : (s.drop (p + 1)).length < s.length := by
        rw [List.length_drop]; omega
      simp only [hq]
      rw [ih (s.take p) a b st (by omega) (by omega) (by omega)]
      have e2 : (fun st1 => go ext a (s.drop (p + 1)) st1) =
          (fun st1 => go ext b (s.drop (p + 1)) st1) :=
        funext fun st1 => ih (s.drop (p + 1)) a b st1 (by omega) (by omega) (by omega)
      rw [e2]
    | none =>
      simp only [hq]
      cases hao : findAndOr s with
      | some pr =>
        obtain ⟨p, op⟩ := pr
        have hp : p + 1 < s.length := findAndOr_lt hao
        have ht : (s.take p).length < s.length := by
          rw [List.length_take]; have := Nat.min_le_left p s.length; omega
        have hd : (s.drop (p + 2)).length < s.length := by
          rw [List.length_drop]; omega
        simp only [hao]
        rw [ih (s.take p) a b st (by omega) (by omega) (by omega)]
        have e2 : (fun st1 => go ext a (s.drop (p + 2)) st1) =
            (fun st1 => go ext b (s.drop (p + 2)) st1) :=
          funext fun st1 => ih (s.drop (p + 2)) a b st1 (by omega) (by omega) (by omega)
        rw [e2]
      | none =>
        simp only [hao]
        cases hpi : findPipe s with
        | some p =>
          have hp : p < s.length := findPipe_lt hpi
          have ht : (s.take p).length < s.length := by
            rw [List.length_take]; have := Nat.min_le_left p s.length; omega
          have hd : (s.drop (p + 1)).length < s.length := by
            rw [List.length_drop]; omega
          simp only [hpi]
          rw [ih (s.take p) a b st (by omega) (by omega) (by omega),
            ih (s.drop (p + 1)) a b st (by omega) (by omega) (by omega)]
        | none =>
          simp only [hpi]
          cases hre : findRedir s with
          | some p =>
            have hp : p < s.length := findRedir_lt hre
            have hc : (parseRedirAt s p).cmd.length < s.length := parseRedir_cmd_lt hp
            simp only [hre]
            rw [ih (parseRedirAt s p).cmd a b st (by omega) (by omega) (by omega)]
          | none =>
            simp only [hre]
            cases htr : trim_whitespace s with
            | nil => rfl
            | cons c rest =>
              have hlen : rest.length < s.length := by
                have := trim_length_le s
                rw [htr] at this
                simp only [List.length_cons] at this
                omega
              simp only [htr]
              split_ifs with hc1 hc2 hc3
              · rw [ih rest a b st (by omega) (by omega) (by omega)]
              · have hdl : rest.dropLast.length < s.length := by
                  rw [List.length_dropLast]; omega
                rw [ih rest.dropLast a b st (by omega) (by omega) (by omega)]
              · rfl
              · rfl

theorem go_eq_execute (ext : List (List Char) → WStatus) {s : List Char} {f : Nat}
    (st : ShellState) (h : s.length < f) : go ext f s st = execute_chain ext s st :=
  go_mono ext (max f (s.length + 1) + 1) s f (s.length + 1) st (by omega) h (by omega)

theorem execute_chain_semi (ext : List (List Char) → WStatus) {s : List Char} {p : Nat}
    (st : ShellState) (h : findSemi s = some p) :
    execute_chain ext s st =
      seqCompose (execute_chain ext (s.take p) st)
        (fun st1 => execute_chain ext (s.drop (p + 1)) st1) := by
  have hp : p < s.length := findSemi_lt h
  have ht : (s.take p).length < s.length := by
    rw [List.length_take]; have := Nat.min_le_left p s.length; omega
  have hd : (s.drop (p + 1)).length < s.length := by rw [List.length_drop]; omega
  show go ext (s.length + 1) s st = _
  simp only [go, h]
  rw [go_eq_execute ext st (by omega)]
  have e2 : (fun st1 => go ext s.length (s.drop (p + 1)) st1) =
      (fun st1 => execute_chain ext (s.drop (p + 1)) st1) :=
    funext fun st1 => go_eq_execute ext st1 (by omega)
  rw [e2]

theorem execute_chain_andor (ext : List (List Char) → WStatus) {s : List Char} {p : Nat}
    {op : AndOr} (st : ShellState) (h0 : findSemi s = none) (h : findAndOr s = some (p, op)) :
    execute_chain ext s st =
      condCompose op (execute_chain ext (s.take p) st)
        (fun st1 => execute_chain ext (s.drop (p + 2)) st1) := by
  have hp : p + 1 < s.length := findAndOr_lt h
  have ht : (s.take p).length < s.length := by
    rw [List.length_take]; have := Nat.min_le_left p s.length; omega
  have hd : (s.drop (p + 2)).length < s.length := by rw [List.length_drop]; omega
  show go ext (s.length + 1) s st = _
  simp only [go, h0, h]
  rw [go_eq_execute ext st (by omega)]
  have e2 : (fun st1 => go ext s.length (s.drop (p + 2)) st1) =
      (fun st1 => execute_chain ext (s.drop (p + 2)) st1) :=
    funext fun st1 => go_eq_execute ext st1 (by omega)
  rw [e2]

theorem execute_chain_pipe (ext : List (List Char) → WStatus) {s : List Char} {p : Nat}
    (st : ShellState) (h0 : findSemi s = none) (h1 : findAndOr s = none)
    (h : findPipe s = some p) :
    execute_chain ext s st =
      run_pipe st (execute_chain ext (s.take p) st) (execute_chain ext (s.drop (p + 1)) st) := by
  have hp : p < s.length := findPipe_lt h
  have ht : (s.take p).length < s.length := by
    rw [List.length_take]; have := Nat.min_le_left p s.length; omega
  have hd : (s.drop (p + 1)).length < s.length := by rw [List.length_drop]; omega
  show go ext (s.length + 1) s st = _
  simp only [go, h0, h1, h]
  rw [go_eq_execute ext st (by omega), go_eq_execute ext st (by omega)]

theorem execute_chain_redir (ext : List (List Char) → WStatus) {s : List Char} {p : Nat}
    (st : ShellState) (h0 : findSemi s = none) (h1 : findAndOr s = none)
    (h2 : findPipe s = none) (h : findRedir s = some p) :
    execute_chain ext s st =
      run_redirect st (parseRedirAt s p).file (parseRedirAt s p).destFd
        (execute_chain ext (parseRedirAt s p).cmd st) := by
  have hp : p < s.length := findRedir_lt h
  have hc : (parseRedirAt s p).cmd.length < s.length := parseRedir_cmd_lt hp
  show go ext (s.length + 1) s st = _
  simp only [go, h0, h1, h2, h]
  rw [go_eq_execute ext st (by omega)]

theorem execute_chain_neg (ext : List (List Char) → WStatus) {s rest : List Char}
    (st : ShellState) (h0 : findSemi s = none) (h1 : findAndOr s = none)
    (h2 : findPipe s = none) (h3 : findRedir s = none)
    (h : trim_whitespace s = '!' :: rest) :
    execute_chain ext s st = negWrap (execute_chain ext rest st) := by
  have hlen : rest.length < s.length := by
    have := trim_length_le s
    rw [h] at this
    simp only [List.length_cons] at this
    omega
  show go ext (s.length + 1) s st = _
  simp only [go, h0, h1, h2, h3, h, if_true]
  rw [go_eq_execute ext st (by omega)]

theorem execute_chain_paren_err (ext : List (List Char) → WStatus) {s rest : List Char}
    (st : ShellState) (h0 : findSemi s = none) (h1 : findAndOr s = none)
    (h2 : findPipe s = none) (h3 : findRedir s = none)
    (h : trim_whitespace s = '(' :: rest) (hlast : rest.getLast? ≠ some ')') :
    execute_chain ext s st = { outcome := Outcome.ret 2, st := st, tr := [] } := by
  show go ext (s.length + 1) s st = _
  simp only [go, h0, h1, h2, h3, h, if_true]
  rw [if_neg (show ('(' : Char) ≠ '!' by decide), if_neg hlast]

theorem execute_chain_atomic (ext : List (List Char) → WStatus) {s : List Char}
    {c : Char} {rest : List Char} (st : ShellState) (h0 : findSemi s = none)
    (h1 : findAndOr s = none) (h2 : findPipe s = none) (h3 : findRedir s = none)
    (h : trim_whitespace s = c :: rest) (hc1 : c ≠ '!') (hc2 : c ≠ '(') :
    execute_chain ext s st = dispatchCommand ext (parse_command (c :: rest)) st := by
  show go ext (s.length + 1) s st = _
  simp only [go, h0, h1, h2, h3, h]
  rw [if_neg hc1, if_neg hc2]

/-! ### Helper lemmas about trimming and line ends -/

theorem trim_prefix_of_nolead {s : List Char} (h : s.dropWhile isSpaceC = s) :
    trim_whitespace s <+: s := by
  unfold trim_whitespace
  rw [h]
  have h1 : s.reverse.dropWhile isSpaceC <:+ s.reverse := List.dropWhile_suffix _
  have h2 : (s.reverse.dropWhile isSpaceC).reverse <+: s.reverse.reverse :=
    List.reverse_prefix.2 h1
  rwa [List.reverse_reverse] at h2

theorem prefix_getD {t s : List Char} (h : t <+: s) {i : Nat} (hi : i < t.length) :
    s.getD i ' ' = t.getD i ' ' := by
  obtain ⟨u, rfl⟩ := h
  exact List.getD_append t u ' ' i hi

theorem getLast?_eq_getD : ∀ (t : List Char), t ≠ [] →
    t.getLast? = some (t.getD (t.length - 1) ' ')
  | [], h => absurd rfl h
  | [_], _ => rfl
  | a :: b :: r, _ => by
    rw [List.getLast?_cons_cons, getLast?_eq_getD (b :: r) (by simp)]
    simp only [List.length_cons, Nat.add_sub_cancel, List.getD_cons_succ]

theorem drop_pair : ∀ (t : List Char), 2 ≤ t.length →
    t.drop (t.length - 2) = [t.getD (t.length - 2) ' ', t.getD (t.length - 1) ' ']
  | [], h => by simp at h
  | [_], h => by simp at h
  | [a, b], _ => rfl
  | a :: b :: c :: r, _ => drop_pair (b :: c :: r) (by simp)

theorem prefix_take_sub_one {t s : List Char} (h : t <+: s) :
    s.take (t.length - 1) = t.dropLast := by
  obtain ⟨u, rfl⟩ := h
  rw [List.take_append_of_le_length (by omega), List.dropLast_eq_take]

theorem print_history_getElem (h : List (List Char)) :
    ∀ (n i : Nat), (print_history n h)[i]? =
      (h[i]?).map (fun e => Ev.print (Nat.toDigits 10 (n + i) ++ ' ' :: e)) := by
  induction h with
  | nil => intro n i; simp [print_history]
  | cons l r ih =>
    intro n i
    cases i with
    | zero => simp [print_history]
    | succ j =>
      have e1 : n + (j + 1) = (n + 1) + j := by omega
      simp only [print_history, List.getElem?_cons_succ, ih (n + 1) j, e1]

/-! ### Claim theorems -/

/-- Claim C1, counterexample: the claim asserts `!!true` yields 1, but
`execute_chain` gives 0 — the outer `!` strips one bang, evaluates `!true`
(status 1), and inverts it back to 0. -/
theorem doubleNegationCounterexample :
    (execute_chain extTB (cs "!!true") st0).outcome = Outcome.ret 0 ∧
    (execute_chain extTB (cs "!!true") st0).outcome ≠ Outcome.ret 1 := by
  decide

/-- Claim C1 (amended): when no depth-0 `;`, `&&`/`||`, pipe or redirection
is found and the trimmed chain begins with `!`, `execute_chain` strips the
`!`, recursively evaluates the remainder and inverts the resulting status
(0 becomes 1, non-zero becomes 0); hence `!true` yields 1, `!false` yields 0
and `!!true` yields 0 (each `!` flips once, so two flips restore success). -/
theorem negationMechanism :
    (∀ (ext : List (List Char) → WStatus) (s rest : List Char) (st : ShellState),
        findSemi s = none → findAndOr s = none → findPipe s = none → findRedir s = none →
        trim_whitespace s = '!' :: rest →
        execute_chain ext s st = negWrap (execute_chain ext rest st)) ∧
    (execute_chain extTB (cs "!true") st0).outcome = Outcome.ret 1 ∧
    (execute_chain extTB (cs "!false") st0).outcome = Outcome.ret 0 ∧
    (execute_chain extTB (cs "!!true") st0).outcome = Outcome.ret 0 :=
  ⟨fun ext s rest st h0 h1 h2 h3 h => execute_chain_neg ext st h0 h1 h2 h3 h,
    by decide, by decide, by decide⟩

/-- Witness for `negationMechanism` at the concrete chain `!false`. -/
theorem negationMechanism_witness :
    execute_chain extTB (cs "!false") st0 = negWrap (execute_chain extTB (cs "false") st0) :=
  negationMechanism.1 extTB (cs "!false") (cs "false") st0
    (by decide) (by decide) (by decide) (by decide) (by decide)

/-- Claim C2, counterexample: the claim asserts `run_pipe` translates the
right child's status exactly as `run`/`run_subshell` do (signal N → 128+N),
but `run_pipe` maps death by signal 9 to 1, while `run` maps it to 137. -/
theorem pipeSignalTranslationCounterexample :
    run_pipe_wait (WStatus.exited 0) (WStatus.signaled 9) = 1 ∧
    waitTranslateRun (WStatus.signaled 9) = 137 ∧
    run_pipe_wait (WStatus.exited 0) (WStatus.signaled 9) ≠
      waitTranslateRun (WStatus.signaled 9) := by
  decide

/-- Claim C2 (amended): for a pipe split at depth 0, the parent discards the
left child's status entirely and returns the right child's status translated
by `run_pipe`'s own rule: normal exit → its code, any abnormal termination
(including death by signal) → 1 — not the 128+N rule of `run`/`run_subshell`. -/
theorem pipeStatusPolicy :
    (∀ (ext : List (List Char) → WStatus) (s : List Char) (p : Nat) (st : ShellState),
        findSemi s = none → findAndOr s = none → findPipe s = some p →
        execute_chain ext s st =
          run_pipe st (execute_chain ext (s.take p) st)
            (execute_chain ext (s.drop (p + 1)) st)) ∧
    (∀ lw lw' rw, run_pipe_wait lw rw = run_pipe_wait lw' rw) ∧
    (∀ lw rw, run_pipe_wait lw rw = waitTranslatePipe rw) ∧
    (∀ c, waitTranslatePipe (WStatus.exited c) = c) ∧
    (∀ n, waitTranslatePipe (WStatus.signaled n) = 1) :=
  ⟨fun ext s p st h0 h1 h => execute_chain_pipe ext st h0 h1 h,
    fun _ _ _ => rfl, fun _ _ => rfl, fun _ => rfl, fun _ => rfl⟩

/-- Witness for `pipeStatusPolicy` at the concrete chain `true | false`. -/
theorem pipeStatusPolicy_witness :
    execute_chain extTB (cs "true | false") st0 =
      run_pipe st0 (execute_chain extTB (cs "true ") st0)
        (execute_chain extTB (cs " false") st0) :=
  pipeStatusPolicy.1 extTB (cs "true | false") 5 st0 (by decide) (by decide) (by decide)

/-- Claim C3: when the conditional scan finds `&&` first at depth 0, the
chain splits there; a left status of 0 runs the right side and returns its
result (events of both sides in order), a non-zero left status returns the
left result unchanged and the right side contributes nothing — no event of
the right side is ever emitted. -/
theorem andConditional :
    ∀ (ext : List (List Char) → WStatus) (s : List Char) (p : Nat) (st : ShellState),
      findSemi s = none → findAndOr s = some (p, AndOr.andOp) →
      (execute_chain ext s st =
        condCompose AndOr.andOp (execute_chain ext (s.take p) st)
          (fun st1 => execute_chain ext (s.drop (p + 2)) st1)) ∧
      (∀ st1 tr1, execute_chain ext (s.take p) st = ⟨Outcome.ret 0, st1, tr1⟩ →
        execute_chain ext s st =
          { outcome := (execute_chain ext (s.drop (p + 2)) st1).outcome
            st := (execute_chain ext (s.drop (p + 2)) st1).st
            tr := tr1 ++ (execute_chain ext (s.drop (p + 2)) st1).tr }) ∧
      (∀ v st1 tr1, v ≠ 0 → execute_chain ext (s.take p) st = ⟨Outcome.ret v, st1, tr1⟩ →
        execute_chain ext s st = ⟨Outcome.ret v, st1, tr1⟩) := by
  intro ext s p st h0 h
  have hstep := execute_chain_andor ext st h0 h
  refine ⟨hstep, ?_, ?_⟩
  · intro st1 tr1 hL
    rw [hstep, hL]
    rfl
  · intro v st1 tr1 hv hL
    rw [hstep, hL]
    simp only [condCompose]
    rw [if_neg hv]

/-- Witness for `andConditional`: `false && true` returns the left failure
and never runs `true`. -/
theorem andConditional_witness :
    execute_chain extTB (cs "false && true") st0 =
      { outcome := Outcome.ret 1, st := { st0 with lastExit := 1 }
        tr := [Ev.cmd [cs "false"] (WStatus.exited 1)] } :=
  (andConditional extTB (cs "false && true") 6 st0 (by decide) (by decide)).2.2
    1 { st0 with lastExit := 1 } [Ev.cmd [cs "false"] (WStatus.exited 1)]
    (by decide) (by decide)

/-- Claim C4: an atomic command whose trimmed text begins with `(` but does
not end with `)` is a syntax error: status 2, state untouched, no event at
all (nothing forked, nothing dispatched); and a sibling sub-expression in the
same chain still runs normally (`true ; (foo` runs `true` and returns 2). -/
theorem unmatchedParenSyntaxError :
    (∀ (ext : List (List Char) → WStatus) (s rest : List Char) (st : ShellState),
        findSemi s = none → findAndOr s = none → findPipe s = none → findRedir s = none →
        trim_whitespace s = '(' :: rest → rest.getLast? ≠ some ')' →
        execute_chain ext s st = { outcome := Outcome.ret 2, st := st, tr := [] }) ∧
    execute_chain extTB (cs "true ; (foo") st0 =
      { outcome := Outcome.ret 2, st := st0, tr := [Ev.cmd [cs "true"] (WStatus.exited 0)] } :=
  ⟨fun ext s rest st h0 h1 h2 h3 h hl =>
      execute_chain_paren_err ext st h0 h1 h2 h3 h hl,
    by decide⟩

/-- Witness for `unmatchedParenSyntaxError` at the concrete chain `(echo hi`. -/
theorem unmatchedParenSyntaxError_witness :
    execute_chain extTB (cs "(echo hi") st0 =
      { outcome := Outcome.ret 2, st := st0, tr := [] } :=
  unmatchedParenSyntaxError.1 extTB (cs "(echo hi") (cs "echo hi") st0
    (by decide) (by decide) (by decide) (by decide) (by decide) (by decide)

/-- Claim C10: `cd -` with an empty previous-directory slot prints the
current working directory, returns status 0, and leaves the state (both the
working directory and the slot) unchanged. -/
theorem cdDashEmptySlot :
    ∀ (ext : List (List Char) → WStatus) (st : ShellState), st.prevDir = [] →
      execute_chain ext (cs "cd -") st =
        { outcome := Outcome.ret 0, st := st, tr := [Ev.print st.cwd] } := by
  intro ext st h
  have hatom : execute_chain ext (cs "cd -") st = cdBuiltin [['-']] st := rfl
  rw [hatom]
  simp [cdBuiltin, h]

/-- Witness for `cdDashEmptySlot` at the initial state. -/
theorem cdDashEmptySlot_witness :
    execute_chain extTB (cs "cd -") st0 =
      { outcome := Outcome.ret 0, st := st0, tr := [Ev.print (cs "/")] } :=
  cdDashEmptySlot extTB st0 rfl

/-- Claim C5, counterexample: after the external command `cmd3` exits 3 and a
subsequent `cd` usage error makes the loop record status 1, a bare `exit`
terminates the shell with 1, not with the last external-command exit status 3:
`last_exit_status` is overwritten by every chain, not only by external
commands. -/
theorem exitNoArgCounterexample :
    (pish extC5 [cs "cmd3", cs "cd", cs "exit"] st0).2.1 = some 1 ∧
    lastExternalExit (pish extC5 [cs "cmd3", cs "cd", cs "exit"] st0).2.2 = some 3 ∧
    (pish extC5 [cs "cmd3", cs "cd", cs "exit"] st0).2.1 ≠ some 3 := by
  decide

/-- Claim C5 (amended): `exit` with no argument terminates the shell with the
last recorded exit status, which the main loop updates with EVERY chain's
status (not only external commands'); one well-formed numeric argument
terminates with the value masked to one byte (`exit 300` → 44); a malformed
numeric argument returns status 2 and the shell keeps running; more than one
argument returns usage status 1 and the shell keeps running. -/
theorem exitBuiltinBehavior :
    ∀ (ext : List (List Char) → WStatus) (st : ShellState),
      (execute_chain ext (cs "exit") st =
        { outcome := Outcome.exited st.lastExit, st := st, tr := [] }) ∧
      (execute_chain ext (cs "exit 300") st =
        { outcome := Outcome.exited 44, st := st, tr := [] }) ∧
      (execute_chain ext (cs "exit 4x") st =
        { outcome := Outcome.ret 2, st := st, tr := [] }) ∧
      (execute_chain ext (cs "exit 1 2") st =
        { outcome := Outcome.ret 1, st := st, tr := [] }) ∧
      (∀ (l : List Char) (v : Nat) (st2 : ShellState) (tr : List Ev), l ≠ [] →
        execute_chain ext l (pishHistState l st) = ⟨Outcome.ret v, st2, tr⟩ →
        (pishStep ext l st).1.lastExit = v) := by
  intro ext st
  refine ⟨rfl, rfl, rfl, rfl, ?_⟩
  intro l v st2 tr hne hex
  simp only [pishStep, if_neg hne, hex]

/-- Witness for `exitBuiltinBehavior`: the loop records the external status 3
of `cmd3` as the shell's last exit status. -/
theorem exitBuiltinBehavior_witness :
    (pishStep extC5 (cs "cmd3") st0).1.lastExit = 3 :=
  (exitBuiltinBehavior extC5 st0).2.2.2.2 (cs "cmd3") 3
    { lastExit := 3, prevDir := [], cwd := cs "/"
      fs := [cs "/", cs "/a", cs "/b"], history := [cs "cmd3"] }
    [Ev.cmd [cs "cmd3"] (WStatus.exited 3)]
    (by decide) (by decide)

/-- Claim C6, counterexample: start in `/`, `cd /b` succeeds (slot = `/`),
then `cd /nope` fails with status 1 and an unchanged working directory — but
the slot now holds `/b`, no longer the directory that was current before the
last SUCCESSFUL `cd` (which was `/`): the failing `cd` overwrote it. -/
theorem prevDirInvariantCounterexample :
    (execute_chain extTB (cs "cd /b") st0).st.prevDir = cs "/" ∧
    (execute_chain extTB (cs "cd /b") st0).st.cwd = cs "/b" ∧
    (execute_chain extTB (cs "cd /nope") (execute_chain extTB (cs "cd /b") st0).st).outcome =
      Outcome.ret 1 ∧
    (execute_chain extTB (cs "cd /nope") (execute_chain extTB (cs "cd /b") st0).st).st.cwd =
      cs "/b" ∧
    (execute_chain extTB (cs "cd /nope") (execute_chain extTB (cs "cd /b") st0).st).st.prevDir =
      cs "/b" ∧
    cs "/b" ≠ cs "/" := by
  decide

/-- Claim C6 (amended): `cd path` records the current working directory in
the previous-directory slot BEFORE attempting the change, and a failed change
returns status 1 and leaves the working directory unmodified but does NOT
restore the slot — so the slot records the directory current immediately
before the last explicit-path `cd` attempt (successful or not), not
necessarily before the last successful `cd`. -/
theorem cdPathSlotBehavior :
    ∀ (st : ShellState) (path : List Char), path ≠ ['-'] →
      (path ∉ st.fs →
        cdBuiltin [path] st =
          { outcome := Outcome.ret 1, st := { st with prevDir := st.cwd }, tr := [] }) ∧
      (path ∈ st.fs →
        cdBuiltin [path] st =
          { outcome := Outcome.ret 0
            st := { st with prevDir := st.cwd, cwd := path }, tr := [] }) := by
  intro st path hdash
  constructor
  · intro hm; simp [cdBuiltin, hdash, hm]
  · intro hm; simp [cdBuiltin, hdash, hm]

/-- Witness for `cdPathSlotBehavior`: a failed `cd /nope` from `/` leaves the
directory alone but writes `/` into the slot. -/
theorem cdPathSlotBehavior_witness :
    cdBuiltin [cs "/nope"] st0 =
      { outcome := Outcome.ret 1, st := { st0 with prevDir := cs "/" }, tr := [] } :=
  (cdPathSlotBehavior st0 (cs "/nope") (by decide)).1 (by decide)

/-- Claim C7, counterexample: a run of 15 digits immediately before `>`
(whitespace-separated from the previous token) does NOT select the
destination descriptor — the `len < 15` buffer guard silently ignores it and
the default descriptor 1 applies, with the digits left in the command text. -/
theorem redirFdWidthCounterexample :
    findRedir (cs "echo 123456789012345>f") = some 20 ∧
    natOfDigits (cs "123456789012345") = 123456789012345 ∧
    (parseRedirAt (cs "echo 123456789012345>f") 20).destFd = 1 ∧
    (parseRedirAt (cs "echo 123456789012345>f") 20).cmd = cs "echo 123456789012345" ∧
    (parseRedirAt (cs "echo 123456789012345>f") 20).destFd ≠
      natOfDigits (cs "123456789012345") := by
  decide

/-- Claim C7 (amended): for a redirection found at depth 0, the chain is
split by `parseRedirAt` and handed to `run_redirect`; the destination
descriptor defaults to 0 for `<` and `<>` and to 1 for `>` and `>>`; a digit
run immediately preceding the operator, separated from any prior token by
whitespace or start-of-string, selects the descriptor ONLY when it is shorter
than 15 characters (otherwise the default applies and the digits stay in the
command text); and a target of exactly `-` (optionally `&`-prefixed) closes
the destination descriptor and continues evaluating the command without
opening any file. -/
theorem redirGrammar :
    (∀ (ext : List (List Char) → WStatus) (s : List Char) (p : Nat) (st : ShellState),
        findSemi s = none → findAndOr s = none → findPipe s = none → findRedir s = some p →
        execute_chain ext s st =
          run_redirect st (parseRedirAt s p).file (parseRedirAt s p).destFd
            (execute_chain ext (parseRedirAt s p).cmd st)) ∧
    (∀ (s : List Char) (p : Nat), s.getD p ' ' = '<' → defaultFdOf s p = 0) ∧
    (∀ (s : List Char) (p : Nat), s.getD p ' ' = '>' → 0 < p → s.getD (p - 1) ' ' = '<' →
        defaultFdOf s p = 0) ∧
    (∀ (s : List Char) (p : Nat), s.getD p ' ' = '>' → 0 < p → s.getD (p - 1) ' ' = '>' →
        defaultFdOf s p = 1) ∧
    (∀ (s : List Char) (p : Nat), s.getD p ' ' = '>' →
        (p = 0 ∨ (s.getD (p - 1) ' ' ≠ '<' ∧ s.getD (p - 1) ' ' ≠ '>')) →
        defaultFdOf s p = 1) ∧
    (∀ (s : List Char) (o d : Nat), 0 < o → isDigitC (s.getD (o - 1) ' ') = true →
        (dStart s (o - 1) = 0 ∨ isSpaceC (s.getD (dStart s (o - 1) - 1) ' ') = true) →
        (o - 1) - dStart s (o - 1) + 1 < 15 →
        destFdOf s o d = natOfDigits (digitRun s o)) ∧
    (∀ (s : List Char) (o d : Nat), fdSelApplies s o = false → destFdOf s o d = d) ∧
    (∀ (st : ShellState) (file : List Char) (fd : Nat) (r : Res),
        (if file.head? = some '&' then file.tail else file) = ['-'] →
        run_redirect st file fd r =
          { outcome := Outcome.ret (waitTranslatePipe (childWait r)), st := st
            tr := Ev.closeFd fd :: r.tr }) ∧
    (∀ (st : ShellState) (file : List Char) (fd : Nat) (r : Res),
        (if file.head? = some '&' then file.tail else file) ≠ ['-'] →
        run_redirect st file fd r =
          { outcome := Outcome.ret (waitTranslatePipe (childWait r)), st := st
            tr := Ev.openFile file :: r.tr }) := by
  refine ⟨fun ext s p st h0 h1 h2 h => execute_chain_redir ext st h0 h1 h2 h,
    ?_, ?_, ?_, ?_, ?_, ?_, ?_, ?_⟩
  · intro s p h
    unfold defaultFdOf opKindOf
    rw [h, if_pos rfl]
  · intro s p h1 hp h2
    unfold defaultFdOf opKindOf
    rw [h1, h2]
    rw [if_neg (by decide), if_neg (fun hc => absurd hc.2 (by decide)), if_pos ⟨hp, rfl⟩]
  · intro s p h1 hp h2
    unfold defaultFdOf opKindOf
    rw [h1, h2]
    rw [if_neg (by decide), if_pos ⟨hp, rfl⟩]
  · intro s p h1 hor
    unfold defaultFdOf opKindOf
    rw [h1]
    rcases hor with rfl | ⟨hne1, hne2⟩
    · rw [if_neg (by decide), if_neg (fun hc => absurd hc.1 (lt_irrefl 0)),
        if_neg (fun hc => absurd hc.1 (lt_irrefl 0))]
    · rw [if_neg (by decide), if_neg (fun hc => hne2 hc.2), if_neg (fun hc => hne1 hc.2)]
  · intro s o d h1 h2 h3 h4
    have happ : fdSelApplies s o = true := by
      unfold fdSelApplies
      simp only [Bool.and_eq_true, Bool.or_eq_true, decide_eq_true_eq]
      exact ⟨⟨h1, h2⟩, h3, h4⟩
    simp [destFdOf, happ]
  · intro s o d h
    simp [destFdOf, h]
  · intro st file fd r h
    simp only [run_redirect]
    rw [if_pos h]
  · intro st file fd r h
    simp only [run_redirect]
    rw [if_neg h]

/-- Witness for `redirGrammar` at the concrete chain `echo x>f`. -/
theorem redirGrammar_witness :
    execute_chain extTB (cs "echo x>f") st0 =
      run_redirect st0 (parseRedirAt (cs "echo x>f") 6).file
        (parseRedirAt (cs "echo x>f") 6).destFd
        (execute_chain extTB (parseRedirAt (cs "echo x>f") 6).cmd st0) :=
  redirGrammar.1 extTB (cs "echo x>f") 6 st0 (by decide) (by decide) (by decide) (by decide)

/-- Claim C9, counterexample: the history entry stored for the assembled
command `echo  hi` (two spaces) is the token-rejoined text `echo hi` — the
store holds the whitespace-normalized text, not the full assembled command
text. -/
theorem historyVerbatimCounterexample :
    (pishStep extTB (cs "echo  hi") st0).1.history = [cs "echo hi"] ∧
    (pishStep extTB (cs "echo  hi") st0).1.history ≠ [cs "echo  hi"] := by
  decide

/-- Claim C9 (amended): for every assembled interactive command with at least
one token, the history log appends ONE line holding the command's tokens
joined by single spaces (whitespace-normalized, not the verbatim assembled
text), before the command executes (so `history` lists itself as its last
entry); printing numbers the stored entries 1-based by their position,
computed at print time; clearing truncates the store to empty. -/
theorem historyStoreBehavior :
    (∀ (h : List (List Char)) (i : Nat),
        (print_history 1 h)[i]? =
          (h[i]?).map (fun e => Ev.print (Nat.toDigits 10 (1 + i) ++ ' ' :: e))) ∧
    (∀ st : ShellState, historyBuiltin [cs "-c"] st =
        { outcome := Outcome.ret 0, st := { st with history := [] }, tr := [] }) ∧
    (∀ (line : List Char) (st : ShellState), parse_command line ≠ [] →
        (pishHistState line st).history = st.history ++ [joinSpace (parse_command line)]) ∧
    (∀ (ext : List (List Char) → WStatus) (st : ShellState),
        (pishStep ext (cs "history") st).2.2 =
          print_history 1 (st.history ++ [cs "history"])) := by
  refine ⟨fun h i => print_history_getElem h 1 i, ?_, ?_, ?_⟩
  · intro st; rfl
  · intro line st h
    simp [pishHistState, add_history, h]
  · intro ext st; rfl

/-- Witness for `historyStoreBehavior`: assembling `pwd` appends one entry. -/
theorem historyStoreBehavior_witness :
    (pishHistState (cs "pwd") st0).history =
      st0.history ++ [joinSpace (parse_command (cs "pwd"))] :=
  historyStoreBehavior.2.2.1 (cs "pwd") st0 (by decide)

/-- Claim C8: for an assembled line with no leading whitespace (which the
`pish` loop guarantees, since it joins trimmed pieces): a line whose trimmed
text ends in `\` joins with the next line with no inserted separator and with
the backslash removed; a line ending in `&&`, `||`, a single `|` (not part of
`||`), or a dangling `>` or `<` joins with a single inserted space; any other
line triggers no continuation. -/
theorem continuationRules :
    ∀ (s next : List Char), s.dropWhile isSpaceC = s → s ≠ [] →
      ((trim_whitespace s).getLast? = some '\\' →
        joinContinuation s next =
          some ((trim_whitespace s).dropLast ++ trim_whitespace next)) ∧
      (¬(trim_whitespace s).getLast? = some '\\' →
        ((2 ≤ (trim_whitespace s).length ∧
            (trim_whitespace s).drop ((trim_whitespace s).length - 2) = ['&', '&']) ∨
          (2 ≤ (trim_whitespace s).length ∧
            (trim_whitespace s).drop ((trim_whitespace s).length - 2) = ['|', '|']) ∨
          (trim_whitespace s).getLast? = some '|' ∨
          (trim_whitespace s).getLast? = some '>' ∨
          (trim_whitespace s).getLast? = some '<') →
        joinContinuation s next = some (s ++ ' ' :: trim_whitespace next)) ∧
      (¬(trim_whitespace s).getLast? = some '\\' →
        ¬(2 ≤ (trim_whitespace s).length ∧
            (trim_whitespace s).drop ((trim_whitespace s).length - 2) = ['&', '&']) →
        ¬(trim_whitespace s).getLast? = some '|' →
        ¬(trim_whitespace s).getLast? = some '>' →
        ¬(trim_whitespace s).getLast? = some '<' →
        joinContinuation s next = none) := by
  intro s next hnl hne
  have hpre : trim_whitespace s <+: s := trim_prefix_of_nolead hnl
  have hslen : ¬s.length = 0 := fun h => hne (List.length_eq_zero.mp h)
  refine ⟨?_, ?_, ?_⟩
  · -- trailing backslash
    intro hA
    have htne : trim_whitespace s ≠ [] := by
      intro h; rw [h] at hA; simp at hA
    have hl : 0 < (trim_whitespace s).length := List.length_pos.2 htne
    have hgl := getLast?_eq_getD (trim_whitespace s) htne
    have hgd : (trim_whitespace s).getD ((trim_whitespace s).length - 1) ' ' = '\\' :=
      Option.some.inj (hgl.symm.trans hA)
    have hsg : s.getD ((trim_whitespace s).length - 1) ' ' = '\\' :=
      (prefix_getD hpre (by omega)).trans hgd
    have hcheck : check_for_continuation s = (1, s.take ((trim_whitespace s).length - 1)) := by
      unfold check_for_continuation
      rw [if_neg hslen, if_pos ⟨hl, hsg⟩]
    unfold joinContinuation
    rw [hcheck]
    simp [continuationSep, prefix_take_sub_one hpre]
  · -- operator continuations join with one space
    intro hnA hor
    by_cases htne : trim_whitespace s = []
    · exfalso; rw [htne] at hor; simp at hor
    · have hl : 0 < (trim_whitespace s).length := List.length_pos.2 htne
      have hgl := getLast?_eq_getD (trim_whitespace s) htne
      have hfst : ¬(0 < (trim_whitespace s).length ∧
          s.getD ((trim_whitespace s).length - 1) ' ' = '\\') := by
        rintro ⟨-, hgd⟩
        have hv : (trim_whitespace s).getD ((trim_whitespace s).length - 1) ' ' = '\\' :=
          (prefix_getD hpre (by omega)).symm.trans hgd
        exact hnA (hgl.trans (by rw [hv]))
      by_cases hsec : 2 ≤ (trim_whitespace s).length ∧
          ((trim_whitespace s).drop ((trim_whitespace s).length - 2) = ['&', '&'] ∨
            (trim_whitespace s).drop ((trim_whitespace s).length - 2) = ['|', '|'])
      · have hcheck : check_for_continuation s = (2, s) := by
          unfold check_for_continuation
          rw [if_neg hslen, if_neg hfst, if_pos hsec]
        unfold joinContinuation
        rw [hcheck]
        simp [continuationSep]
      · rcases hor with hB | hB' | hC | hD | hE
        · exact absurd ⟨hB.1, Or.inl hB.2⟩ hsec
        · exact absurd ⟨hB'.1, Or.inr hB'.2⟩ hsec
        · have hgd : (trim_whitespace s).getD ((trim_whitespace s).length - 1) ' ' = '|' :=
            Option.some.inj (hgl.symm.trans hC)
          have hthird : 1 ≤ (trim_whitespace s).length ∧
              (trim_whitespace s).getD ((trim_whitespace s).length - 1) ' ' = '|' ∧
              ((trim_whitespace s).length < 2 ∨
                ¬(trim_whitespace s).getD ((trim_whitespace s).length - 2) ' ' = '|') := by
            refine ⟨hl, hgd, ?_⟩
            by_cases h2 : 2 ≤ (trim_whitespace s).length
            · right
              intro hprev
              exact hsec ⟨h2, Or.inr (by rw [drop_pair (trim_whitespace s) h2, hprev, hgd])⟩
            · left; omega
          have hcheck : check_for_continuation s = (3, s) := by
            unfold check_for_continuation
            rw [if_neg hslen, if_neg hfst, if_neg hsec, if_pos hthird]
          unfold joinContinuation
          rw [hcheck]
          simp [continuationSep]
        · have hgd : (trim_whitespace s).getD ((trim_whitespace s).length - 1) ' ' = '>' :=
            Option.some.inj (hgl.symm.trans hD)
          have hthird : ¬(1 ≤ (trim_whitespace s).length ∧
              (trim_whitespace s).getD ((trim_whitespace s).length - 1) ' ' = '|' ∧
              ((trim_whitespace s).length < 2 ∨
                ¬(trim_whitespace s).getD ((trim_whitespace s).length - 2) ' ' = '|')) := by
            rintro ⟨-, hmid, -⟩
            rw [hgd] at hmid
            exact absurd hmid (by decide)
          have hcheck : check_for_continuation s = (4, s) := by
            unfold check_for_continuation
            rw [if_neg hslen, if_neg hfst, if_neg hsec, if_neg hthird,
              if_pos ⟨hl, Or.inl hgd⟩]
          unfold joinContinuation
          rw [hcheck]
          simp [continuationSep]
        · have hgd : (trim_whitespace s).getD ((trim_whitespace s).length - 1) ' ' = '<' :=
            Option.some.inj (hgl.symm.trans hE)
          have hthird : ¬(1 ≤ (trim_whitespace s).length ∧
              (trim_whitespace s).getD ((trim_whitespace s).length - 1) ' ' = '|' ∧
              ((trim_whitespace s).length < 2 ∨
                ¬(trim_whitespace s).getD ((trim_whitespace s).length - 2) ' ' = '|')) := by
            rintro ⟨-, hmid, -⟩
            rw [hgd] at hmid
            exact absurd hmid (by decide)
          have hcheck : check_for_continuation s = (4, s) := by
            unfold check_for_continuation
            rw [if_neg hslen, if_neg hfst, if_neg hsec, if_neg hthird,
              if_pos ⟨hl, Or.inr hgd⟩]
          unfold joinContinuation
          rw [hcheck]
          simp [continuationSep]
  · -- no continuation
    intro hnA hnB hnC hnD hnE
    by_cases htne : trim_whitespace s = []
    · have hcheck : check_for_continuation s = (0, s) := by
        unfold check_for_continuation
        rw [if_neg hslen, htne]
        rw [if_neg (by simp), if_neg (by simp), if_neg (by simp), if_neg (by simp)]
      unfold joinContinuation
      rw [hcheck]
      rfl
    · have hl : 0 < (trim_whitespace s).length := List.length_pos.2 htne
      have hgl := getLast?_eq_getD (trim_whitespace s) htne
      have hfst : ¬(0 < (trim_whitespace s).length ∧
          s.getD ((trim_whitespace s).length - 1) ' ' = '\\') := by
        rintro ⟨-, hgd⟩
        have hv : (trim_whitespace s).getD ((trim_whitespace s).length - 1) ' ' = '\\' :=
          (prefix_getD hpre (by omega)).symm.trans hgd
        exact hnA (hgl.trans (by rw [hv]))
      have hsec : ¬(2 ≤ (trim_whitespace s).length ∧
          ((trim_whitespace s).drop ((trim_whitespace s).length - 2) = ['&', '&'] ∨
            (trim_whitespace s).drop ((trim_whitespace s).length - 2) = ['|', '|'])) := by
        rintro ⟨h2, hp | hp⟩
        · exact hnB ⟨h2, hp⟩
        · have h4 := (drop_pair (trim_whitespace s) h2).symm.trans hp
          simp only [List.cons.injEq, and_true] at h4
          exact hnC (hgl.trans (by rw [h4.2]))
      have hthird : ¬(1 ≤ (trim_whitespace s).length ∧
          (trim_whitespace s).getD ((trim_whitespace s).length - 1) ' ' = '|' ∧
          ((trim_whitespace s).length < 2 ∨
            ¬(trim_whitespace s).getD ((trim_whitespace s).length - 2) ' ' = '|')) := by
        rintro ⟨-, hmid, -⟩
        exact hnC (hgl.trans (by rw [hmid]))
      have hfour : ¬(0 < (trim_whitespace s).length ∧
          ((trim_whitespace s).getD ((trim_whitespace s).length - 1) ' ' = '>' ∨
            (trim_whitespace s).getD ((trim_whitespace s).length - 1) ' ' = '<')) := by
        rintro ⟨-, hgd | hgd⟩
        · exact hnD (hgl.trans (by rw [hgd]))
        · exact hnE (hgl.trans (by rw [hgd]))
      have hcheck : check_for_continuation s = (0, s) := by
        unfold check_for_continuation
        rw [if_neg hslen, if_neg hfst, if_neg hsec, if_neg hthird, if_neg hfour]
      unfold joinContinuation
      rw [hcheck]
      rfl

/-- Witness for `continuationRules`: `echo a &&` joined with ` echo b`. -/
theorem continuationRules_witness :
    joinContinuation (cs "echo a &&") (cs " echo b") =
      some (cs "echo a &&" ++ ' ' :: trim_whitespace (cs " echo b")) :=
  (continuationRules (cs "echo a &&") (cs " echo b") (by decide) (by decide)).2.1
    (by decide) (Or.inl (by decide))

end Pish
